import Mathlib

set_option linter.unusedSectionVars false

/-!
Verification of the rate-limited request-admission layer of the dnbcoaching
backend.

The core under scrutiny is the fixed-window rate limiter produced by
`createRateLimiter(windowMs, maxRequests)` (three textually identical copies
live in the repository; we embed the generic factory).  A limiter instance
owns a JS `Map` from key to `{ count, windowStart }`.  On every call it

  1. sweeps all expired entries (`now - windowStart > windowMs`),
  2. if the store still holds more than `RATE_LIMIT_MAX_ENTRIES` entries,
     sorts a copy by `windowStart` ascending and deletes the keys of the
     first `ceil(size / 2)` sorted entries from the store,
  3. looks the key up: absent or expired means a fresh `{ count: 1,
     windowStart: now }` is written and `false` (admit) is returned;
     otherwise `count` is incremented in place and `count > maxRequests`
     is returned.

A JS `Map` is embedded as an insertion-ordered association list with unique
keys: `get` returns the first (only) binding, `set` updates the binding in
place or appends a new one, `delete` removes the binding, and iteration
(`entries()`, spreading, `sort`) follows the list order.  JS `Array.sort`
with comparator `a - b` is stable (ES2019), so the sorted copy is embedded
by a stable insertion sort on `windowStart`.  Times (`Date.now()`) are
embedded as `Int`.  Keys are kept generic over a type with decidable
equality (the server instantiates them at `String`).
-/

namespace DnbCoaching

/-- A window entry, mirroring the JS object `\x7b count, windowStart \x7d`. -/
structure Entry where
  count : Nat
  windowStart : Int
deriving DecidableEq, Repr

/-- The backing `Map` of one limiter instance, as an insertion-ordered
association list. -/
abbrev Store (κ : Type) := List (κ × Entry)

/-- Cap on the number of tracked keys (`RATE_LIMIT_MAX_ENTRIES = 10000`). -/
def RATE_LIMIT_MAX_ENTRIES : Nat := 10000

variable {κ : Type} [DecidableEq κ]

/-- JS `store.get(key)`: the value of the first (unique) binding of `k`. -/
def mapGet : Store κ → κ → Option Entry
  | [], _ => none
  | p :: ps, k => if p.1 = k then some p.2 else mapGet ps k

/-- JS `store.set(key, v)`: update the existing binding in place (keeping its
position) or append a new binding at the end. -/
def mapSet : Store κ → κ → Entry → Store κ
  | [], k, v => [(k, v)]
  | p :: ps, k, v => if p.1 = k then (k, v) :: ps else p :: mapSet ps k v

/-- JS `entry.count++` on the object obtained from `store.get(key)`:
increments the count of the binding of `k` in place. -/
def bumpCount : Store κ → κ → Store κ
  | [], _ => []
  | p :: ps, k =>
      if p.1 = k then (p.1, ⟨p.2.count + 1, p.2.windowStart⟩) :: ps
      else p :: bumpCount ps k

/-- JS `store.delete(key)`: remove the binding of `k` (if any). -/
def mapDelete : Store κ → κ → Store κ
  | [], _ => []
  | p :: ps, k => if p.1 = k then ps else p :: mapDelete ps k

/-- The inline cleanup loop: `for ([k, entry] of store.entries()) if (now -
entry.windowStart > windowMs) store.delete(k)`. -/
def sweep (windowMs now : Int) (s : Store κ) : Store κ :=
  s.filter (fun p => !decide (now - p.2.windowStart > windowMs))

/-- Insert an entry into a list already sorted by ascending `windowStart`,
after all entries with a `windowStart` less than or equal to its own. -/
def insertByWindowStart (p : κ × Entry) : Store κ → Store κ
  | [] => [p]
  | q :: qs =>
      if p.2.windowStart < q.2.windowStart then p :: q :: qs
      else q :: insertByWindowStart p qs

/-- JS `[...store.entries()].sort((a, b) => a[1].windowStart -
b[1].windowStart)`: a stable ascending sort of the entries by
`windowStart`. -/
def sortByWindowStart (s : Store κ) : Store κ :=
  s.foldl (fun acc p => insertByWindowStart p acc) []

/-- The keys deleted by the eviction loop: `entries[i][0]` for
`0 ≤ i < entries.length / 2`, i.e. the first `ceil(length / 2)` keys of the
sorted copy. -/
def victims (s : Store κ) : List κ :=
  ((sortByWindowStart s).take (((sortByWindowStart s).length + 1) / 2)).map Prod.fst

/-- The capacity-eviction step: `if (store.size > RATE_LIMIT_MAX_ENTRIES)`,
delete the oldest-window half of the entries from the store. -/
def evict (s : Store κ) : Store κ :=
  if s.length > RATE_LIMIT_MAX_ENTRIES then (victims s).foldl mapDelete s else s

/-- The body of `checkRateLimit(key)` returned by
`createRateLimiter(windowMs, maxRequests)`.  Returns the blocked flag
(`true` means reject) together with the updated store. -/
def checkRateLimit (windowMs : Int) (maxRequests : Nat) (s : Store κ)
    (now : Int) (k : κ) : Bool × Store κ :=
  let s2 := evict (sweep windowMs now s)
  match mapGet s2 k with
  | none => (false, mapSet s2 k ⟨1, now⟩)
  | some e =>
      if now - e.windowStart > windowMs then (false, mapSet s2 k ⟨1, now⟩)
      else (decide (e.count + 1 > maxRequests), bumpCount s2 k)

/-- One call made to a limiter: the clock reading and the key. -/
structure Call (κ : Type) where
  now : Int
  key : κ

/-- Run a limiter over a sequence of calls, collecting the blocked flags. -/
def runCheck (windowMs : Int) (maxRequests : Nat) :
    Store κ → List (Call κ) → List Bool × Store κ
  | s, [] => ([], s)
  | s, c :: cs =>
      let r := checkRateLimit windowMs maxRequests s c.now c.key
      let rest := runCheck windowMs maxRequests r.2 cs
      (r.1 :: rest.1, rest.2)

/-- Run a limiter over a sequence of calls, pairing each key with the
blocked flag its call returned. -/
def runPairs (windowMs : Int) (maxRequests : Nat) :
    Store κ → List (Call κ) → List (κ × Bool)
  | _, [] => []
  | s, c :: cs =>
      let r := checkRateLimit windowMs maxRequests s c.now c.key
      (c.key, r.1) :: runPairs windowMs maxRequests r.2 cs

/-- Chat quota window: `5 * 60 * 1000` ms. -/
def CHAT_RATE_WINDOW : Int := 5 * 60 * 1000

/-- Chat quota: 20 requests per window per access code. -/
def CHAT_RATE_MAX : Nat := 20

/-- Admin-login quota window: `15 * 60 * 1000` ms. -/
def ADMIN_LOGIN_RATE_WINDOW : Int := 15 * 60 * 1000

/-- Admin-login quota: 5 attempts per window per client address. -/
def ADMIN_LOGIN_RATE_MAX : Nat := 5

/-- The dual-backend chat limiter `checkChatRateLimit` of
`src/config/constants.js`.  `chatUpstashLimiter` is `none` when no remote
backend is configured (`UPSTASH_REDIS_REST_URL` unset); a configured remote
backend is an oracle that, for a key, either yields the remote `success`
flag or fails (network error, timeout, serialization error — the `catch`
path).  A remote answer leaves the local store untouched; a missing or
failing backend evaluates the call on the local fixed-window limiter
(`createRateLimiter(5 * 60 * 1000, 20)`). -/
def checkChatRateLimit (chatUpstashLimiter : Option (κ → Except Unit Bool))
    (s : Store κ) (now : Int) (k : κ) : Bool × Store κ :=
  match chatUpstashLimiter with
  | none => checkRateLimit CHAT_RATE_WINDOW CHAT_RATE_MAX s now k
  | some limit =>
      match limit k with
      | .ok success => (!success, s)
      | .error _ => checkRateLimit CHAT_RATE_WINDOW CHAT_RATE_MAX s now k

/-- Outcome of one `POST /api/chat` request, by the `return` that produced
the response (`forwarded` means the handler reached the completion-API
call). -/
inductive ChatOutcome where
  | missingApiKey
  | missingBody
  | validateOk
  | validateFail
  | codeRequired
  | invalidCode
  | rateLimited
  | badRequest
  | forwarded
deriving DecidableEq, Repr

/-- The request-dependent data the chat route branches on.  `codestr` stands
for the JS `(code || '').trim()`; `codeMissing` is its JS falsiness (the
empty string); `codeValid` is the verdict of the external `isCodeValid`
lookup for `codestr`; `messagesOk` abstracts the message-shape validations
(array check, roles, lengths, image URL) that sit between the rate-limit
check and the completion call. -/
structure ChatRequest (κ : Type) where
  hasBody : Bool
  validateOnly : Bool
  codestr : κ
  codeMissing : Bool
  codeValid : Bool
  messagesOk : Bool

/-- The branch structure of the `app.post('/api/chat')` handler of
`src/unnamed/part_000`, down to the rate-limit check and the decision to
forward to the completion API.  Returns the outcome together with the chat
limiter store after the request. -/
def chatHandler (apiKeyPresent : Bool) (r : ChatRequest κ) (s : Store κ)
    (now : Int) : ChatOutcome × Store κ :=
  if !apiKeyPresent then (.missingApiKey, s)
  else if !r.hasBody then (.missingBody, s)
  else if r.validateOnly then
    if !r.codeValid then (.validateFail, s) else (.validateOk, s)
  else if r.codeMissing then (.codeRequired, s)
  else if !r.codeValid then (.invalidCode, s)
  else
    let rl := checkRateLimit CHAT_RATE_WINDOW CHAT_RATE_MAX s now r.codestr
    if rl.1 then (.rateLimited, rl.2)
    else if !r.messagesOk then (.badRequest, rl.2)
    else (.forwarded, rl.2)

/-- Outcome of one `POST /api/admin/login` request. -/
inductive LoginOutcome where
  | rateLimited
  | passwordRequired
  | invalidPassword
  | loginOk
  | authFailure
deriving DecidableEq, Repr

/-- The request-dependent data the admin-login route branches on.
`clientIp` is the already-extracted client network address; `authOk` is
false when `getAdminPasswordHash`/`verifyPassword` throws (the `catch`
path); `passwordValid` is the verdict of `verifyPassword`. -/
structure LoginRequest (κ : Type) where
  clientIp : κ
  hasPassword : Bool
  authOk : Bool
  passwordValid : Bool

/-- The branch structure of the `app.post('/api/admin/login')` handler of
`src/unnamed/part_000`.  Returns the outcome, the login limiter store after
the request, and whether the submitted credentials were evaluated (i.e. the
handler entered the `try` block that reads the stored hash and runs
`verifyPassword`). -/
def adminLoginHandler (r : LoginRequest κ) (s : Store κ) (now : Int) :
    LoginOutcome × Store κ × Bool :=
  let rl := checkRateLimit ADMIN_LOGIN_RATE_WINDOW ADMIN_LOGIN_RATE_MAX s now r.clientIp
  if rl.1 then (.rateLimited, rl.2, false)
  else if !r.hasPassword then (.passwordRequired, rl.2, false)
  else if !r.authOk then (.authFailure, rl.2, true)
  else if !r.passwordValid then (.invalidPassword, rl.2, true)
  else (.loginOk, rl.2, true)

/-- The two module-level limiter instances: `checkChatRateLimit =
createRateLimiter(5 * 60 * 1000, 20)` and `checkAdminLoginRateLimit =
createRateLimiter(ADMIN_LOGIN_RATE_WINDOW, ADMIN_LOGIN_RATE_MAX)`.  Each
`createRateLimiter` call closes over its own fresh `Map`, so the server's
limiter state is a pair of independent stores. -/
structure ServerState (κ : Type) where
  chatStore : Store κ
  loginStore : Store κ

/-- A call to one of the two limiter instances. -/
inductive ServerCall (κ : Type) where
  | chat (now : Int) (key : κ)
  | login (now : Int) (key : κ)

/-- Dispatch one call to the limiter instance it belongs to. -/
def serverStep (st : ServerState κ) : ServerCall κ → ServerState κ
  | .chat now key =>
      { st with chatStore := (checkRateLimit CHAT_RATE_WINDOW CHAT_RATE_MAX st.chatStore now key).2 }
  | .login now key =>
      { st with loginStore := (checkRateLimit ADMIN_LOGIN_RATE_WINDOW ADMIN_LOGIN_RATE_MAX st.loginStore now key).2 }

/-- Run an interleaved sequence of chat and login limiter calls. -/
def serverRun (st : ServerState κ) : List (ServerCall κ) → ServerState κ
  | [] => st
  | c :: cs => serverRun (serverStep st c) cs

/-- The chat calls of an interleaved sequence, in order. -/
def chatCallsOf : List (ServerCall κ) → List (Call κ)
  | [] => []
  | .chat now key :: cs => ⟨now, key⟩ :: chatCallsOf cs
  | .login _ _ :: cs => chatCallsOf cs

/-- The login calls of an interleaved sequence, in order. -/
def loginCallsOf : List (ServerCall κ) → List (Call κ)
  | [] => []
  | .chat _ _ :: cs => loginCallsOf cs
  | .login now key :: cs => ⟨now, key⟩ :: loginCallsOf cs

/-- A JS runtime exception; the only candidate inside `checkRateLimit` is a
`TypeError` from reading a property of `undefined`. -/
inductive JsError where
  | typeError
deriving DecidableEq, Repr

/-- Read a value that JS would hold as possibly-`undefined`; reading a
property of `undefined` throws. -/
def jsRead : Option α → Except JsError α
  | none => .error .typeError
  | some a => .ok a

/-- The eviction step with JS evaluation made explicit: the loop
`for (let i = 0; i < entries.length / 2; i++) store.delete(entries[i][0])`
reads `entries[i]` by index and throws if that read yields `undefined`. -/
def evictE (s : Store κ) : Except JsError (Store κ) :=
  if s.length > RATE_LIMIT_MAX_ENTRIES then
    let entries := sortByWindowStart s
    (List.range ((entries.length + 1) / 2)).foldlM
      (fun acc i => do
        let p ← jsRead entries[i]?
        pure (mapDelete acc p.1)) s
  else pure s

/-- The limiter body with JS evaluation made explicit: every place the
source could raise a `TypeError` is a fallible read. -/
def checkRateLimitE (windowMs : Int) (maxRequests : Nat) (s : Store κ)
    (now : Int) (k : κ) : Except JsError (Bool × Store κ) := do
  let s2 ← evictE (sweep windowMs now s)
  match mapGet s2 k with
  | none => pure (false, mapSet s2 k ⟨1, now⟩)
  | some e =>
      if now - e.windowStart > windowMs then pure (false, mapSet s2 k ⟨1, now⟩)
      else pure (decide (e.count + 1 > maxRequests), bumpCount s2 k)

/-- The entry of `k` as the limiter's lookup will see it at time `now`: an
absent or expired entry reads as absent. -/
def liveEntry (windowMs now : Int) : Option Entry → Option Entry
  | none => none
  | some e => if now - e.windowStart > windowMs then none else some e

/-- The reference single-key transition: what one call does to a key, as a
function of that key's live entry alone. -/
def singleStep (windowMs : Int) (maxRequests : Nat) (now : Int)
    (oe : Option Entry) : Bool × Entry :=
  match liveEntry windowMs now oe with
  | none => (false, ⟨1, now⟩)
  | some e => (decide (e.count + 1 > maxRequests), ⟨e.count + 1, e.windowStart⟩)

/-- A store of `n` distinct keys, all with a fresh window started at time 0,
in insertion order `0, 1, …, n - 1` (the state reached by calling a fresh
limiter once for each of `n` distinct keys at time 0). -/
def bigStore (n : Nat) : Store Nat :=
  (List.range n).map (fun i => (i, ⟨1, 0⟩))

/-- Keys of a store are pairwise distinct (a JS `Map` invariant). -/
def KeysNodup (s : Store κ) : Prop := (s.map Prod.fst).Nodup

theorem mapGet_eq_none_iff {s : Store κ} {k : κ} :
    mapGet s k = none ↔ k ∉ s.map Prod.fst := by
  induction s with
  | nil => simp [mapGet]
  | cons p ps ih =>
      by_cases h : p.1 = k
      · subst h; simp [mapGet]
      · simp only [mapGet, h, if_false, List.map_cons, List.mem_cons, ih]
        constructor
        · intro hk hor
          rcases hor with hh | hh
          · exact h hh.symm
          · exact hk hh
        · intro hk hh
          exact hk (Or.inr hh)

theorem mapGet_filter_eq_none {s : Store κ} {k : κ} (f : κ × Entry → Bool)
    (h : mapGet s k = none) : mapGet (s.filter f) k = none := by
  rw [mapGet_eq_none_iff] at h ⊢
  intro hmem
  apply h
  rcases List.mem_map.mp hmem with ⟨p, hp, hk⟩
  exact List.mem_map.mpr ⟨p, (List.mem_filter.mp hp).1, hk⟩

theorem mapGet_mapSet_self (s : Store κ) (k : κ) (v : Entry) :
    mapGet (mapSet s k v) k = some v := by
  induction s with
  | nil => simp [mapSet, mapGet]
  | cons p ps ih =>
      by_cases h : p.1 = k <;> simp [mapSet, h, mapGet, ih]

theorem mapGet_mapSet_ne (s : Store κ) {k k' : κ} (v : Entry) (h : k' ≠ k) :
    mapGet (mapSet s k v) k' = mapGet s k' := by
  have h2 : ¬ k = k' := fun hh => h hh.symm
  induction s with
  | nil => simp [mapSet, mapGet, h2]
  | cons p ps ih =>
      by_cases hp : p.1 = k
      · subst hp
        simp [mapSet, mapGet, h2]
      · simp [mapSet, hp, mapGet, ih]

theorem keys_mapSet (s : Store κ) (k : κ) (v : Entry) :
    (mapSet s k v).map Prod.fst =
      if k ∈ s.map Prod.fst then s.map Prod.fst else s.map Prod.fst ++ [k] := by
  induction s with
  | nil => simp [mapSet]
  | cons p ps ih =>
      by_cases h : p.1 = k
      · simp [mapSet, h]
      · have hne : ¬ k = p.1 := fun hh => h hh.symm
        by_cases hmem : k ∈ ps.map Prod.fst <;>
          simp [mapSet, h, ih, hmem, hne]

theorem length_mapSet_of_not_mem {s : Store κ} {k : κ} (v : Entry)
    (h : k ∉ s.map Prod.fst) : (mapSet s k v).length = s.length + 1 := by
  have := congrArg List.length (keys_mapSet s k v)
  simpa [h] using this

theorem length_mapSet_le (s : Store κ) (k : κ) (v : Entry) :
    (mapSet s k v).length ≤ s.length + 1 := by
  have := congrArg List.length (keys_mapSet s k v)
  by_cases h : k ∈ s.map Prod.fst <;> simp [h] at this <;> omega

theorem keysNodup_mapSet {s : Store κ} (k : κ) (v : Entry) (h : KeysNodup s) :
    KeysNodup (mapSet s k v) := by
  unfold KeysNodup at h ⊢
  rw [keys_mapSet]
  by_cases hmem : k ∈ s.map Prod.fst <;> simp [hmem, List.nodup_append, h]

theorem keys_bumpCount (s : Store κ) (k : κ) :
    (bumpCount s k).map Prod.fst = s.map Prod.fst := by
  induction s with
  | nil => simp [bumpCount]
  | cons p ps ih =>
      by_cases h : p.1 = k <;> simp [bumpCount, h, ih]

theorem length_bumpCount (s : Store κ) (k : κ) :
    (bumpCount s k).length = s.length := by
  have := congrArg List.length (keys_bumpCount s k)
  simpa using this

theorem keysNodup_bumpCount {s : Store κ} (k : κ) (h : KeysNodup s) :
    KeysNodup (bumpCount s k) := by
  unfold KeysNodup at h ⊢
  rw [keys_bumpCount]; exact h

theorem mapGet_bumpCount_self (s : Store κ) (k : κ) :
    mapGet (bumpCount s k) k =
      (mapGet s k).map (fun e => ⟨e.count + 1, e.windowStart⟩) := by
  induction s with
  | nil => simp [bumpCount, mapGet]
  | cons p ps ih =>
      by_cases h : p.1 = k <;> simp [bumpCount, h, mapGet, ih]

theorem mapGet_bumpCount_ne (s : Store κ) {k k' : κ} (h : k' ≠ k) :
    mapGet (bumpCount s k) k' = mapGet s k' := by
  have h2 : ¬ k = k' := fun hh => h hh.symm
  induction s with
  | nil => simp [bumpCount]
  | cons p ps ih =>
      by_cases hp : p.1 = k
      · subst hp
        simp [bumpCount, mapGet, h2]
      · simp [bumpCount, hp, mapGet, ih]

theorem mapGet_mapDelete_eq_none {s : Store κ} {k : κ} (k' : κ)
    (h : mapGet s k = none) : mapGet (mapDelete s k') k = none := by
  induction s with
  | nil => simpa [mapDelete] using h
  | cons p ps ih =>
      by_cases hp : p.1 = k
      · simp [mapGet, hp] at h
      · simp only [mapGet, hp, if_false] at h
        by_cases hd : p.1 = k' <;> simp [mapDelete, hd, mapGet, hp, ih h, h]

theorem mapDelete_eq_filter {s : Store κ} (k : κ) (h : KeysNodup s) :
    mapDelete s k = s.filter (fun p => !decide (p.1 = k)) := by
  induction s with
  | nil => simp [mapDelete]
  | cons p ps ih =>
      unfold KeysNodup at h
      simp only [List.map_cons, List.nodup_cons] at h
      by_cases hp : p.1 = k
      · subst hp
        have : ps.filter (fun q => !decide (q.1 = p.1)) = ps := by
          apply List.filter_eq_self.mpr
          intro q hq
          simp only [Bool.not_eq_eq_eq_not, Bool.not_true, decide_eq_false_iff_not]
          intro hqp
          exact h.1 (List.mem_map.mpr ⟨q, hq, hqp⟩)
        simp [mapDelete, this]
      · simp [mapDelete, hp, ih h.2]

theorem keysNodup_filter {s : Store κ} (f : κ × Entry → Bool)
    (h : KeysNodup s) : KeysNodup (s.filter f) :=
  h.sublist ((s.filter_sublist).map Prod.fst)

theorem keysNodup_mapDelete {s : Store κ} (k : κ) (h : KeysNodup s) :
    KeysNodup (mapDelete s k) := by
  rw [mapDelete_eq_filter k h]
  exact keysNodup_filter _ h

theorem foldl_mapDelete_eq_filter (ks : List κ) :
    ∀ {s : Store κ}, KeysNodup s →
      ks.foldl mapDelete s = s.filter (fun p => !decide (p.1 ∈ ks)) := by
  induction ks with
  | nil => intro s _; simp
  | cons k ks ih =>
      intro s h
      have h' : KeysNodup (mapDelete s k) := keysNodup_mapDelete k h
      calc (k :: ks).foldl mapDelete s
          = ks.foldl mapDelete (mapDelete s k) := rfl
        _ = (mapDelete s k).filter (fun p => !decide (p.1 ∈ ks)) := ih h'
        _ = (s.filter (fun p => !decide (p.1 = k))).filter
              (fun p => !decide (p.1 ∈ ks)) := by rw [mapDelete_eq_filter k h]
        _ = s.filter (fun p => !decide (p.1 ∈ k :: ks)) := by
              rw [List.filter_filter]
              apply List.filter_congr
              intro p _
              by_cases h1 : p.1 = k <;> by_cases h2 : p.1 ∈ ks <;>
                simp [h1, h2]

theorem mapGet_sweep {s : Store κ} (wm now : Int) (k : κ) (h : KeysNodup s) :
    mapGet (sweep wm now s) k = liveEntry wm now (mapGet s k) := by
  induction s with
  | nil => simp [sweep, mapGet, liveEntry]
  | cons p ps ih =>
      unfold KeysNodup at h
      simp only [List.map_cons, List.nodup_cons] at h
      have hsw : sweep wm now (p :: ps)
          = if (!decide (now - p.2.windowStart > wm)) = true
            then p :: sweep wm now ps else sweep wm now ps := by
        simp only [sweep, List.filter_cons]
      by_cases hexp : now - p.2.windowStart > wm
      · have hcond : ¬ ((!decide (now - p.2.windowStart > wm)) = true) := by
          simp [hexp]
        rw [hsw, if_neg hcond]
        by_cases hp : p.1 = k
        · subst hp
          have hnone : mapGet ps p.1 = none := mapGet_eq_none_iff.mpr h.1
          have h2 : mapGet (sweep wm now ps) p.1 = none :=
            mapGet_filter_eq_none _ hnone
          rw [h2]
          simp [mapGet, liveEntry, hexp]
        · rw [ih h.2]
          simp [mapGet, hp]
      · have hcond : (!decide (now - p.2.windowStart > wm)) = true := by
          simp [hexp]
        rw [hsw, if_pos hcond]
        by_cases hp : p.1 = k
        · simp [mapGet, hp, liveEntry, hexp]
        · simp [mapGet, hp, ih h.2]

theorem keysNodup_sweep {s : Store κ} (wm now : Int) (h : KeysNodup s) :
    KeysNodup (sweep wm now s) :=
  keysNodup_filter _ h

theorem length_sweep_le (wm now : Int) (s : Store κ) :
    (sweep wm now s).length ≤ s.length :=
  (List.filter_sublist s).length_le

theorem countP_add_countP_not (l : List α) (p : α → Bool) :
    l.countP p + l.countP (fun a => !(p a)) = l.length := by
  induction l with
  | nil => simp
  | cons a l ih =>
      by_cases h : p a <;> simp [List.countP_cons, h] <;> omega

theorem mem_insertByWindowStart {p q : κ × Entry} {l : Store κ} :
    q ∈ insertByWindowStart p l ↔ q = p ∨ q ∈ l := by
  induction l with
  | nil => simp [insertByWindowStart]
  | cons r rs ih =>
      by_cases h : p.2.windowStart < r.2.windowStart
      · simp [insertByWindowStart, h]
      · simp [insertByWindowStart, h, ih]
        tauto

theorem insertByWindowStart_perm (p : κ × Entry) (l : Store κ) :
    (insertByWindowStart p l).Perm (p :: l) := by
  induction l with
  | nil => simp [insertByWindowStart]
  | cons q qs ih =>
      by_cases h : p.2.windowStart < q.2.windowStart
      · rw [insertByWindowStart, if_pos h]
      · rw [insertByWindowStart, if_neg h]
        exact (ih.cons q).trans (List.Perm.swap p q qs)

theorem foldl_insertByWindowStart_perm (s : Store κ) :
    ∀ acc : Store κ,
      (s.foldl (fun a p => insertByWindowStart p a) acc).Perm (s ++ acc) := by
  induction s with
  | nil => intro acc; simp
  | cons q qs ih =>
      intro acc
      have h1 := ih (insertByWindowStart q acc)
      have h2 : (qs ++ insertByWindowStart q acc).Perm (qs ++ (q :: acc)) :=
        (insertByWindowStart_perm q acc).append_left qs
      have h3 : (qs ++ (q :: acc)).Perm (q :: (qs ++ acc)) := List.perm_middle
      exact (h1.trans h2).trans h3

theorem sortByWindowStart_perm (s : Store κ) : (sortByWindowStart s).Perm s := by
  simpa [sortByWindowStart] using foldl_insertByWindowStart_perm s []

theorem length_sortByWindowStart (s : Store κ) :
    (sortByWindowStart s).length = s.length :=
  (sortByWindowStart_perm s).length_eq

/-- The comparison the eviction sort orders by. -/
def wsLE (p q : κ × Entry) : Prop := p.2.windowStart ≤ q.2.windowStart

theorem pairwise_insertByWindowStart {p : κ × Entry} {l : Store κ}
    (h : l.Pairwise wsLE) : (insertByWindowStart p l).Pairwise wsLE := by
  induction l with
  | nil => simp [insertByWindowStart, List.pairwise_cons]
  | cons q qs ih =>
      rcases List.pairwise_cons.mp h with ⟨hq, hqs⟩
      by_cases hlt : p.2.windowStart < q.2.windowStart
      · rw [insertByWindowStart, if_pos hlt]
        refine List.pairwise_cons.mpr ⟨?_, h⟩
        intro x hx
        rcases List.mem_cons.mp hx with hx | hx
        · subst hx; exact le_of_lt hlt
        · exact le_trans (le_of_lt hlt) (hq x hx)
      · rw [insertByWindowStart, if_neg hlt]
        refine List.pairwise_cons.mpr ⟨?_, ih hqs⟩
        intro x hx
        rcases mem_insertByWindowStart.mp hx with hx | hx
        · subst hx; exact le_of_not_lt hlt
        · exact hq x hx

theorem sortByWindowStart_sorted (s : Store κ) :
    (sortByWindowStart s).Pairwise wsLE := by
  have main : ∀ acc : Store κ, acc.Pairwise wsLE →
      (s.foldl (fun a p => insertByWindowStart p a) acc).Pairwise wsLE := by
    induction s with
    | nil => intro acc h; simpa using h
    | cons q qs ih =>
        intro acc h
        exact ih _ (pairwise_insertByWindowStart h)
  simpa [sortByWindowStart] using main [] (by simp)

theorem victims_length (s : Store κ) :
    (victims s).length = (s.length + 1) / 2 := by
  have hlen := length_sortByWindowStart s
  simp only [victims, List.length_map, List.length_take, hlen]
  omega

theorem victims_subset_keys (s : Store κ) :
    ∀ k ∈ victims s, k ∈ s.map Prod.fst := by
  intro k hk
  rcases List.mem_map.mp hk with ⟨p, hp, rfl⟩
  have hps : p ∈ sortByWindowStart s := List.mem_of_mem_take hp
  exact List.mem_map.mpr ⟨p, (sortByWindowStart_perm s).mem_iff.mp hps, rfl⟩

theorem keys_sortByWindowStart_nodup {s : Store κ} (h : KeysNodup s) :
    ((sortByWindowStart s).map Prod.fst).Nodup :=
  (((sortByWindowStart_perm s).map Prod.fst).nodup_iff).mpr h

theorem victims_nodup {s : Store κ} (h : KeysNodup s) : (victims s).Nodup :=
  (keys_sortByWindowStart_nodup h).sublist
    ((List.take_sublist _ _).map Prod.fst)

theorem evict_of_le {s : Store κ} (h : s.length ≤ RATE_LIMIT_MAX_ENTRIES) :
    evict s = s := by
  unfold evict
  rw [if_neg (by omega)]

theorem evict_eq_filter {s : Store κ} (hnd : KeysNodup s) :
    evict s = if s.length > RATE_LIMIT_MAX_ENTRIES
      then s.filter (fun p => !decide (p.1 ∈ victims s)) else s := by
  unfold evict
  split
  · exact foldl_mapDelete_eq_filter _ hnd
  · rfl

theorem keysNodup_evict {s : Store κ} (hnd : KeysNodup s) :
    KeysNodup (evict s) := by
  rw [evict_eq_filter hnd]
  split
  · exact keysNodup_filter _ hnd
  · exact hnd

theorem mapGet_evict_eq_none {s : Store κ} {k : κ}
    (h : mapGet s k = none) : mapGet (evict s) k = none := by
  unfold evict
  split
  · have main : ∀ (ks : List κ) (t : Store κ), mapGet t k = none →
        mapGet (ks.foldl mapDelete t) k = none := by
      intro ks
      induction ks with
      | nil => intro t ht; simpa using ht
      | cons a ks ih =>
          intro t ht
          exact ih _ (mapGet_mapDelete_eq_none a ht)
    exact main _ _ h
  · exact h

theorem mapGet_filter_of_keep {s : Store κ} {k : κ} (f : κ × Entry → Bool)
    (hf : ∀ p ∈ s, p.1 = k → f p = true) :
    mapGet (s.filter f) k = mapGet s k := by
  induction s with
  | nil => simp
  | cons p ps ih =>
      have ih' := ih (fun q hq => hf q (List.mem_cons_of_mem p hq))
      by_cases hp : p.1 = k
      · have : f p = true := hf p (List.mem_cons_self p ps) hp
        rw [List.filter_cons, if_pos this]
        simp [mapGet, hp]
      · by_cases hfp : f p = true
        · rw [List.filter_cons, if_pos hfp]
          simp [mapGet, hp, ih']
        · rw [List.filter_cons, if_neg hfp]
          simp [mapGet, hp, ih']

theorem mapGet_filter_of_drop {s : Store κ} {k : κ} (f : κ × Entry → Bool)
    (hf : ∀ p ∈ s, p.1 = k → f p = false) :
    mapGet (s.filter f) k = none := by
  rw [mapGet_eq_none_iff]
  intro hmem
  rcases List.mem_map.mp hmem with ⟨p, hp, hk⟩
  rcases List.mem_filter.mp hp with ⟨hps, hfp⟩
  rw [hf p hps hk] at hfp
  exact Bool.false_ne_true hfp

theorem mapGet_evict_of_not_victim {s : Store κ} {k : κ} (hnd : KeysNodup s)
    (hk : k ∉ victims s) : mapGet (evict s) k = mapGet s k := by
  rw [evict_eq_filter hnd]
  split
  · apply mapGet_filter_of_keep
    intro p _ hp
    subst hp
    simpa using hk
  · rfl

theorem mapGet_evict_of_victim {s : Store κ} {k : κ} (hnd : KeysNodup s)
    (hgt : s.length > RATE_LIMIT_MAX_ENTRIES) (hk : k ∈ victims s) :
    mapGet (evict s) k = none := by
  rw [evict_eq_filter hnd, if_pos hgt]
  apply mapGet_filter_of_drop
  intro p _ hp
  subst hp
  simpa using hk

theorem countP_victims {s : Store κ} (hnd : KeysNodup s) :
    s.countP (fun p => decide (p.1 ∈ victims s)) = (victims s).length := by
  have hperm := sortByWindowStart_perm s
  have hcount : s.countP (fun p => decide (p.1 ∈ victims s))
      = (sortByWindowStart s).countP (fun p => decide (p.1 ∈ victims s)) :=
    (hperm.countP_eq _).symm
  have htake : (((sortByWindowStart s).take
        (((sortByWindowStart s).length + 1) / 2)).countP
      (fun p => decide (p.1 ∈ victims s)))
      = ((sortByWindowStart s).take
        (((sortByWindowStart s).length + 1) / 2)).length := by
    apply List.countP_eq_length.mpr
    intro p hp
    have : p.1 ∈ victims s := List.mem_map.mpr ⟨p, hp, rfl⟩
    simpa using this
  have hdrop : (((sortByWindowStart s).drop
        (((sortByWindowStart s).length + 1) / 2)).countP
      (fun p => decide (p.1 ∈ victims s))) = 0 := by
    apply List.countP_eq_zero.mpr
    intro p hp
    simp only [decide_eq_true_eq]
    intro hmem
    rcases List.mem_map.mp hmem with ⟨q, hq, hqp⟩
    have hnodupS := keys_sortByWindowStart_nodup hnd
    rw [← List.take_append_drop (((sortByWindowStart s).length + 1) / 2)
        (sortByWindowStart s), List.map_append, List.nodup_append] at hnodupS
    exact hnodupS.2.2 (List.mem_map.mpr ⟨q, hq, hqp⟩)
      (List.mem_map.mpr ⟨p, hp, rfl⟩)
  rw [hcount,
    ← List.take_append_drop (((sortByWindowStart s).length + 1) / 2)
      (sortByWindowStart s), List.countP_append]
  rw [htake, hdrop]
  simp [victims]

theorem evict_length {s : Store κ} (hnd : KeysNodup s)
    (hgt : s.length > RATE_LIMIT_MAX_ENTRIES) :
    (evict s).length = s.length - (s.length + 1) / 2 := by
  rw [evict_eq_filter hnd, if_pos hgt]
  have hsplit := countP_add_countP_not s (fun p => decide (p.1 ∈ victims s))
  have hvic := countP_victims hnd
  have hvlen := victims_length s
  have hflt : (s.filter (fun p => !decide (p.1 ∈ victims s))).length
      = s.countP (fun p => !decide (p.1 ∈ victims s)) :=
    (s.countP_eq_length_filter _).symm
  omega

theorem liveEntry_liveEntry {wm u t : Int} (h : u ≤ t) (oe : Option Entry) :
    liveEntry wm t (liveEntry wm u oe) = liveEntry wm t oe := by
  cases oe with
  | none => rfl
  | some e =>
      by_cases hu : u - e.windowStart > wm
      · have ht : t - e.windowStart > wm := by omega
        simp [liveEntry, hu, ht]
      · simp [liveEntry, hu]

theorem liveEntry_not_expired {wm now : Int} {oe : Option Entry} {e : Entry}
    (h : liveEntry wm now oe = some e) : ¬ (now - e.windowStart > wm) := by
  cases oe with
  | none => simp [liveEntry] at h
  | some e0 =>
      by_cases hx : now - e0.windowStart > wm
      · simp [liveEntry, hx] at h
      · simp only [liveEntry, hx, if_false, Option.some.injEq] at h
        subst h
        exact hx

theorem check_get_none_eq (wm : Int) (mr : Nat) (s : Store κ) (now : Int) (k : κ)
    (h : mapGet (evict (sweep wm now s)) k = none) :
    checkRateLimit wm mr s now k
      = (false, mapSet (evict (sweep wm now s)) k ⟨1, now⟩) := by
  simp only [checkRateLimit, h]

theorem check_get_some_eq (wm : Int) (mr : Nat) (s : Store κ) (now : Int) (k : κ)
    (e : Entry) (h : mapGet (evict (sweep wm now s)) k = some e) :
    checkRateLimit wm mr s now k
      = if now - e.windowStart > wm
        then (false, mapSet (evict (sweep wm now s)) k ⟨1, now⟩)
        else (decide (e.count + 1 > mr), bumpCount (evict (sweep wm now s)) k) := by
  simp only [checkRateLimit, h]

theorem check_store_eq (wm : Int) (mr : Nat) (s : Store κ) (now : Int) (k : κ) :
    (checkRateLimit wm mr s now k).2 = mapSet (evict (sweep wm now s)) k ⟨1, now⟩
    ∨ (checkRateLimit wm mr s now k).2 = bumpCount (evict (sweep wm now s)) k := by
  cases hget : mapGet (evict (sweep wm now s)) k with
  | none => left; rw [check_get_none_eq wm mr s now k hget]
  | some e =>
      rw [check_get_some_eq wm mr s now k e hget]
      by_cases hx : now - e.windowStart > wm
      · left; rw [if_pos hx]
      · right; rw [if_neg hx]

theorem keysNodup_check (wm : Int) (mr : Nat) {s : Store κ} (now : Int) (k : κ)
    (hnd : KeysNodup s) : KeysNodup (checkRateLimit wm mr s now k).2 := by
  have h2 : KeysNodup (evict (sweep wm now s)) :=
    keysNodup_evict (keysNodup_sweep _ _ hnd)
  rcases check_store_eq wm mr s now k with h | h <;> rw [h]
  · exact keysNodup_mapSet _ _ h2
  · exact keysNodup_bumpCount _ h2

theorem check_fresh {s : Store κ} {k : κ} (wm : Int) (mr : Nat) (now : Int)
    (h : mapGet s k = none) :
    (checkRateLimit wm mr s now k).1 = false
    ∧ mapGet (checkRateLimit wm mr s now k).2 k = some ⟨1, now⟩ := by
  have h1 : mapGet (sweep wm now s) k = none := mapGet_filter_eq_none _ h
  have h2 : mapGet (evict (sweep wm now s)) k = none := mapGet_evict_eq_none h1
  rw [check_get_none_eq wm mr s now k h2]
  exact ⟨rfl, mapGet_mapSet_self _ _ _⟩

theorem check_no_evict {s : Store κ} (wm : Int) (mr : Nat) (now : Int) (k : κ)
    (hnd : KeysNodup s) (hlen : s.length ≤ RATE_LIMIT_MAX_ENTRIES) :
    (checkRateLimit wm mr s now k).1 = (singleStep wm mr now (mapGet s k)).1
    ∧ mapGet (checkRateLimit wm mr s now k).2 k
        = some (singleStep wm mr now (mapGet s k)).2
    ∧ ∀ k', k' ≠ k →
        mapGet (checkRateLimit wm mr s now k).2 k'
          = liveEntry wm now (mapGet s k') := by
  have hs1 : (sweep wm now s).length ≤ RATE_LIMIT_MAX_ENTRIES :=
    le_trans (length_sweep_le _ _ _) hlen
  have hev : evict (sweep wm now s) = sweep wm now s := evict_of_le hs1
  have hget : mapGet (sweep wm now s) k = liveEntry wm now (mapGet s k) :=
    mapGet_sweep wm now k hnd
  have hget2 : mapGet (evict (sweep wm now s)) k = liveEntry wm now (mapGet s k) := by
    rw [hev, hget]
  cases hple : liveEntry wm now (mapGet s k) with
  | none =>
      rw [check_get_none_eq wm mr s now k (by rw [hget2, hple])]
      refine ⟨by simp [singleStep, hple], ?_, ?_⟩
      · rw [mapGet_mapSet_self]
        simp [singleStep, hple]
      · intro k' hk'
        rw [hev, mapGet_mapSet_ne _ _ hk', mapGet_sweep wm now k' hnd]
  | some e =>
      have hnx : ¬ (now - e.windowStart > wm) := liveEntry_not_expired hple
      rw [check_get_some_eq wm mr s now k e (by rw [hget2, hple]), if_neg hnx]
      refine ⟨?_, ?_, ?_⟩
      · simp [singleStep, hple]
      · rw [hev, mapGet_bumpCount_self, hget, hple]
        simp [singleStep, hple]
      · intro k' hk'
        rw [hev, mapGet_bumpCount_ne _ hk', mapGet_sweep wm now k' hnd]

theorem keys_check_subset (wm : Int) (mr : Nat) (s : Store κ) (now : Int) (k : κ) :
    ∀ k' ∈ ((checkRateLimit wm mr s now k).2).map Prod.fst,
      k' = k ∨ k' ∈ s.map Prod.fst := by
  have hsweep : ∀ k' ∈ (sweep wm now s).map Prod.fst, k' ∈ s.map Prod.fst := by
    intro k' hk'
    rcases List.mem_map.mp hk' with ⟨p, hp, rfl⟩
    exact List.mem_map.mpr ⟨p, (List.filter_sublist s).mem hp, rfl⟩
  have hdelete : ∀ (t : Store κ) (a : κ), ∀ p ∈ mapDelete t a, p ∈ t := by
    intro t a
    induction t with
    | nil => simp [mapDelete]
    | cons q qs ih =>
        intro p hp
        by_cases hq : q.1 = a
        · rw [mapDelete, if_pos hq] at hp
          exact List.mem_cons_of_mem q hp
        · rw [mapDelete, if_neg hq] at hp
          rcases List.mem_cons.mp hp with hp | hp
          · exact hp ▸ List.mem_cons_self q qs
          · exact List.mem_cons_of_mem q (ih p hp)
  have hevict : ∀ p ∈ evict (sweep wm now s), p ∈ sweep wm now s := by
    unfold evict
    split
    · have main : ∀ (ks : List κ) (t : Store κ), ∀ p ∈ ks.foldl mapDelete t, p ∈ t := by
        intro ks
        induction ks with
        | nil => intro t p hp; simpa using hp
        | cons a ks ih =>
            intro t p hp
            exact hdelete t a p (ih _ p hp)
      exact main _ _
    · intro p hp; exact hp
  have hkeys2 : ∀ k' ∈ (evict (sweep wm now s)).map Prod.fst, k' ∈ s.map Prod.fst := by
    intro k' hk'
    rcases List.mem_map.mp hk' with ⟨p, hp, rfl⟩
    exact hsweep _ (List.mem_map.mpr ⟨p, hevict p hp, rfl⟩)
  intro k' hk'
  rcases check_store_eq wm mr s now k with h | h <;> rw [h] at hk'
  · rw [keys_mapSet] at hk'
    by_cases hmem : k ∈ (evict (sweep wm now s)).map Prod.fst
    · rw [if_pos hmem] at hk'
      exact Or.inr (hkeys2 _ hk')
    · rw [if_neg hmem] at hk'
      rcases List.mem_append.mp hk' with hk' | hk'
      · exact Or.inr (hkeys2 _ hk')
      · simp at hk'
        exact Or.inl hk'
  · rw [keys_bumpCount] at hk'
    exact Or.inr (hkeys2 _ hk')

theorem check_length_le (wm : Int) (mr : Nat) {s : Store κ} (now : Int) (k : κ)
    (hnd : KeysNodup s) (hlen : s.length ≤ RATE_LIMIT_MAX_ENTRIES + 1) :
    (checkRateLimit wm mr s now k).2.length ≤ RATE_LIMIT_MAX_ENTRIES + 1 := by
  have hnd1 : KeysNodup (sweep wm now s) := keysNodup_sweep _ _ hnd
  have hs1 : (sweep wm now s).length ≤ s.length := length_sweep_le _ _ _
  have h2len : (evict (sweep wm now s)).length ≤ RATE_LIMIT_MAX_ENTRIES := by
    by_cases hgt : (sweep wm now s).length > RATE_LIMIT_MAX_ENTRIES
    · have := evict_length hnd1 hgt
      omega
    · rw [evict_of_le (by omega)]
      omega
  rcases check_store_eq wm mr s now k with h | h <;> rw [h]
  · have := length_mapSet_le (evict (sweep wm now s)) k (⟨1, now⟩ : Entry)
    omega
  · have := length_bumpCount (evict (sweep wm now s)) k
    omega

theorem check_singleton (wm : Int) (mr : Nat) (k : κ) (j : Nat) (t0 t : Int)
    (h : t - t0 ≤ wm) :
    checkRateLimit wm mr [(k, ⟨j, t0⟩)] t k
      = (decide (j + 1 > mr), [(k, ⟨j + 1, t0⟩)]) := by
  have hx : ¬ (t - t0 > wm) := by omega
  have hsw : sweep wm t [(k, (⟨j, t0⟩ : Entry))] = [(k, ⟨j, t0⟩)] := by
    simp [sweep, hx]
  have hev : evict [(k, (⟨j, t0⟩ : Entry))] = [(k, ⟨j, t0⟩)] :=
    evict_of_le (by norm_num [RATE_LIMIT_MAX_ENTRIES])
  have hget : mapGet (evict (sweep wm t [(k, (⟨j, t0⟩ : Entry))])) k
      = some ⟨j, t0⟩ := by
    rw [hsw, hev]
    simp [mapGet]
  rw [check_get_some_eq wm mr _ t k _ hget, if_neg hx, hsw, hev]
  simp [bumpCount]

theorem check_empty (wm : Int) (mr : Nat) (now : Int) (k : κ) :
    checkRateLimit wm mr ([] : Store κ) now k = (false, [(k, ⟨1, now⟩)]) := by
  have hsw : sweep wm now ([] : Store κ) = [] := rfl
  have hev : evict ([] : Store κ) = [] :=
    evict_of_le (by norm_num [RATE_LIMIT_MAX_ENTRIES])
  have hget : mapGet (evict (sweep wm now ([] : Store κ))) k = none := by
    rw [hsw, hev]
    rfl
  rw [check_get_none_eq wm mr _ now k hget, hsw, hev]
  rfl

theorem run_single (wm : Int) (mr : Nat) (k : κ) (t0 : Int) :
    ∀ (ts : List Int) (j : Nat), (∀ t ∈ ts, t - t0 ≤ wm) →
      runCheck wm mr [(k, ⟨j, t0⟩)] (ts.map (fun t => ⟨t, k⟩))
        = ((List.range ts.length).map (fun p => decide (j + p + 1 > mr)),
           [(k, ⟨j + ts.length, t0⟩)]) := by
  intro ts
  induction ts with
  | nil =>
      intro j h
      simp [runCheck]
  | cons t ts ih =>
      intro j h
      have h1 : t - t0 ≤ wm := h t (List.mem_cons_self t ts)
      have h2 : ∀ u ∈ ts, u - t0 ≤ wm := fun u hu => h u (List.mem_cons_of_mem t hu)
      have hnum : j + 1 + ts.length = j + (ts.length + 1) := by omega
      simp only [List.map_cons, runCheck, check_singleton wm mr k j t0 t h1,
        ih (j + 1) h2]
      simp only [List.length_cons]
      rw [List.range_succ_eq_map, List.map_cons, List.map_map, hnum]
      have htail : List.map (fun p => decide (j + 1 + p + 1 > mr)) (List.range ts.length)
          = List.map ((fun p => decide (j + p + 1 > mr)) ∘ Nat.succ)
              (List.range ts.length) := by
        apply List.map_congr_left
        intro p _
        simp only [Function.comp_apply]
        rw [decide_eq_decide]
        omega
      rw [htail]

theorem runCheck_preserves (wm : Int) (mr : Nat) :
    ∀ (calls : List (Call κ)) (s : Store κ),
      KeysNodup s → s.length ≤ RATE_LIMIT_MAX_ENTRIES + 1 →
      KeysNodup (runCheck wm mr s calls).2
      ∧ (runCheck wm mr s calls).2.length ≤ RATE_LIMIT_MAX_ENTRIES + 1 := by
  intro calls
  induction calls with
  | nil =>
      intro s h1 h2
      simpa [runCheck] using ⟨h1, h2⟩
  | cons c cs ih =>
      intro s h1 h2
      have hstep1 := keysNodup_check wm mr c.now c.key h1
      have hstep2 := check_length_le wm mr c.now c.key h1 h2
      have := ih _ hstep1 hstep2
      simpa [runCheck] using this

theorem singleStep_congr {wm : Int} {mr : Nat} {now : Int} {oe1 oe2 : Option Entry}
    (h : liveEntry wm now oe1 = liveEntry wm now oe2) :
    singleStep wm mr now oe1 = singleStep wm mr now oe2 := by
  unfold singleStep
  rw [h]

theorem keys_length_le {s : Store κ} (l : List κ) (hnd : KeysNodup s)
    (hsub : s.map Prod.fst ⊆ l) : s.length ≤ l.length := by
  have := (hnd.subperm hsub).length_le
  simpa using this

theorem run_two (wm : Int) (mr : Nat) (K1 K2 : κ) (hne : K1 ≠ K2) :
    ∀ (calls : List (Call κ)) (sf sg : Store κ),
      (∀ c ∈ calls, c.key = K1 ∨ c.key = K2) →
      calls.Pairwise (fun a b => a.now ≤ b.now) →
      KeysNodup sf → KeysNodup sg →
      (∀ k' ∈ sf.map Prod.fst, k' = K1 ∨ k' = K2) →
      (∀ k' ∈ sg.map Prod.fst, k' = K2) →
      (∀ c ∈ calls,
        liveEntry wm c.now (mapGet sf K2) = liveEntry wm c.now (mapGet sg K2)) →
      (runPairs wm mr sf calls).filter (fun p => decide (p.1 = K2))
        = runPairs wm mr sg (calls.filter (fun c => decide (c.key = K2))) := by
  intro calls
  induction calls with
  | nil =>
      intro sf sg _ _ _ _ _ _ _
      simp [runPairs]
  | cons c cs ih =>
      intro sf sg hkeys hmono hndf hndg hkf hkg hinv
      rcases List.pairwise_cons.mp hmono with ⟨hc, hmono'⟩
      have hlenf : sf.length ≤ RATE_LIMIT_MAX_ENTRIES := by
        have hsub : sf.map Prod.fst ⊆ [K1, K2] := by
          intro a ha
          rcases hkf a ha with h | h <;> simp [h]
        have := keys_length_le [K1, K2] hndf hsub
        simp only [RATE_LIMIT_MAX_ENTRIES]
        simp at this
        omega
      have hleng : sg.length ≤ RATE_LIMIT_MAX_ENTRIES := by
        have hsub : sg.map Prod.fst ⊆ [K2] := by
          intro a ha
          simp [hkg a ha]
        have := keys_length_le [K2] hndg hsub
        simp only [RATE_LIMIT_MAX_ENTRIES]
        simp at this
        omega
      obtain ⟨hres_f, hself_f, hother_f⟩ :=
        check_no_evict wm mr c.now c.key hndf hlenf
      have hndf' := keysNodup_check wm mr c.now c.key hndf
      have hinv_c := hinv c (List.mem_cons_self c cs)
      rcases hkeys c (List.mem_cons_self c cs) with hck | hck
      · -- a call for K1: it is filtered out of both sides and leaves the
        -- live entry of K2 untouched at all later call times
        have hK2ne : K2 ≠ c.key := by rw [hck]; exact fun h => hne h.symm
        have hget' : mapGet (checkRateLimit wm mr sf c.now c.key).2 K2
            = liveEntry wm c.now (mapGet sf K2) := hother_f K2 hK2ne
        have hkf' : ∀ k' ∈ ((checkRateLimit wm mr sf c.now c.key).2).map Prod.fst,
            k' = K1 ∨ k' = K2 := by
          intro k' hk'
          rcases keys_check_subset wm mr sf c.now c.key k' hk' with h | h
          · left; rw [h, hck]
          · exact hkf k' h
        have hinv' : ∀ c' ∈ cs,
            liveEntry wm c'.now (mapGet (checkRateLimit wm mr sf c.now c.key).2 K2)
              = liveEntry wm c'.now (mapGet sg K2) := by
          intro c' hc'
          rw [hget', liveEntry_liveEntry (hc c' hc'), hinv c' (List.mem_cons_of_mem c hc')]
        have hstep := ih (checkRateLimit wm mr sf c.now c.key).2 sg
          (fun c' hc' => hkeys c' (List.mem_cons_of_mem c hc')) hmono'
          hndf' hndg hkf' hkg hinv'
        have hdk : decide (c.key = K2) = false := by
          simp [hck]
          exact hne
        simp only [runPairs, List.filter_cons, hdk]
        simpa [hdk] using hstep
      · -- a call for K2: both runs take the same step on the key
        obtain ⟨hres_g, hself_g, hother_g⟩ :=
          check_no_evict wm mr c.now c.key hndg hleng
        have hndg' := keysNodup_check wm mr c.now c.key hndg
        have hstep_eq : singleStep wm mr c.now (mapGet sf c.key)
            = singleStep wm mr c.now (mapGet sg c.key) := by
          rw [hck]
          exact singleStep_congr hinv_c
        have hkg' : ∀ k' ∈ ((checkRateLimit wm mr sg c.now c.key).2).map Prod.fst,
            k' = K2 := by
          intro k' hk'
          rcases keys_check_subset wm mr sg c.now c.key k' hk' with h | h
          · rw [h, hck]
          · exact hkg k' h
        have hkf' : ∀ k' ∈ ((checkRateLimit wm mr sf c.now c.key).2).map Prod.fst,
            k' = K1 ∨ k' = K2 := by
          intro k' hk'
          rcases keys_check_subset wm mr sf c.now c.key k' hk' with h | h
          · right; rw [h, hck]
          · exact hkf k' h
        have hget_f : mapGet (checkRateLimit wm mr sf c.now c.key).2 K2
            = some (singleStep wm mr c.now (mapGet sf c.key)).2 := by
          rw [← hck]; exact hself_f
        have hget_g : mapGet (checkRateLimit wm mr sg c.now c.key).2 K2
            = some (singleStep wm mr c.now (mapGet sg c.key)).2 := by
          rw [← hck]; exact hself_g
        have hinv' : ∀ c' ∈ cs,
            liveEntry wm c'.now (mapGet (checkRateLimit wm mr sf c.now c.key).2 K2)
              = liveEntry wm c'.now (mapGet (checkRateLimit wm mr sg c.now c.key).2 K2) := by
          intro c' _
          rw [hget_f, hget_g, hstep_eq]
        have hstep := ih (checkRateLimit wm mr sf c.now c.key).2
          (checkRateLimit wm mr sg c.now c.key).2
          (fun c' hc' => hkeys c' (List.mem_cons_of_mem c hc')) hmono'
          hndf' hndg' hkf' hkg' hinv'
        have hdk : decide (c.key = K2) = true := by simp [hck]
        have hres_eq : (checkRateLimit wm mr sf c.now c.key).1
            = (checkRateLimit wm mr sg c.now c.key).1 := by
          rw [hres_f, hres_g, hstep_eq]
        simp only [runPairs, List.filter_cons, hdk, if_pos]
        rw [hres_eq]
        exact congrArg _ hstep

theorem mapGet_mapDelete_self {s : Store κ} (k : κ) (hnd : KeysNodup s) :
    mapGet (mapDelete s k) k = none := by
  rw [mapDelete_eq_filter k hnd]
  apply mapGet_filter_of_drop
  intro p _ hp
  simp [hp]

theorem keys_bigStore (n : Nat) : (bigStore n).map Prod.fst = List.range n := by
  rw [bigStore, List.map_map]
  have : (Prod.fst ∘ fun i : Nat => (i, (⟨1, 0⟩ : Entry))) = id := rfl
  rw [this, List.map_id]

theorem keysNodup_bigStore (n : Nat) : KeysNodup (bigStore n) := by
  unfold KeysNodup
  rw [keys_bigStore]
  exact List.nodup_range n

theorem length_bigStore (n : Nat) : (bigStore n).length = n := by
  simp [bigStore]

theorem mapGet_bigStore_ge {n k : Nat} (h : n ≤ k) :
    mapGet (bigStore n) k = none := by
  rw [mapGet_eq_none_iff, keys_bigStore]
  simp
  omega

theorem sweep_bigStore {wm : Int} (n : Nat) (hwm : 0 ≤ wm) :
    sweep wm 0 (bigStore n) = bigStore n := by
  apply List.filter_eq_self.mpr
  intro p hp
  rcases List.mem_map.mp hp with ⟨i, _, rfl⟩
  simp
  omega

theorem eq_of_mem_keysNodup {l : Store κ} (h : KeysNodup l)
    {p q : κ × Entry} (hp : p ∈ l) (hq : q ∈ l) (hk : p.1 = q.1) : p = q :=
  List.inj_on_of_nodup_map h hp hq hk

theorem victims_oldest {s : Store κ} (hnd : KeysNodup s) :
    ∀ p ∈ s, ∀ q ∈ s, p.1 ∈ victims s → q.1 ∉ victims s →
      p.2.windowStart ≤ q.2.windowStart := by
  intro p hp q hq hpv hqv
  have hsorted := sortByWindowStart_sorted s
  have hperm := sortByWindowStart_perm s
  have hndS : KeysNodup (sortByWindowStart s) := keys_sortByWindowStart_nodup hnd
  have hpS : p ∈ sortByWindowStart s := hperm.mem_iff.mpr hp
  have hqS : q ∈ sortByWindowStart s := hperm.mem_iff.mpr hq
  have hq_not_take : q ∉ (sortByWindowStart s).take
      (((sortByWindowStart s).length + 1) / 2) := by
    intro h
    exact hqv (List.mem_map.mpr ⟨q, h, rfl⟩)
  have hq_drop : q ∈ (sortByWindowStart s).drop
      (((sortByWindowStart s).length + 1) / 2) := by
    have := (List.take_append_drop (((sortByWindowStart s).length + 1) / 2)
      (sortByWindowStart s)) ▸ hqS
    rcases List.mem_append.mp this with h | h
    · exact absurd h hq_not_take
    · exact h
  have hp_take : p ∈ (sortByWindowStart s).take
      (((sortByWindowStart s).length + 1) / 2) := by
    rcases List.mem_map.mp hpv with ⟨p', hp', hpp⟩
    have hp'S : p' ∈ sortByWindowStart s := List.mem_of_mem_take hp'
    have : p' = p := eq_of_mem_keysNodup hndS hp'S hpS hpp
    exact this ▸ hp'
  have hpw : List.Pairwise wsLE
      ((sortByWindowStart s).take (((sortByWindowStart s).length + 1) / 2)
        ++ (sortByWindowStart s).drop (((sortByWindowStart s).length + 1) / 2)) := by
    rw [List.take_append_drop]
    exact hsorted
  exact (List.pairwise_append.mp hpw).2.2 p hp_take q hq_drop

theorem foldlM_range_delete (l : Store κ) :
    ∀ (m : Nat) (acc : Store κ), m ≤ l.length →
      (List.range m).foldlM
        (fun acc i => do
          let p ← jsRead l[i]?
          pure (mapDelete acc p.1)) acc
        = Except.ok (((l.take m).map Prod.fst).foldl mapDelete acc) := by
  intro m
  induction m with
  | zero =>
      intro acc h
      rfl
  | succ m ih =>
      intro acc h
      have hm : m < l.length := by omega
      rw [List.range_succ, List.foldlM_append, ih acc (by omega)]
      have hget : l[m]? = some l[m] := List.getElem?_eq_getElem hm
      have htake : l.take (m + 1) = l.take m ++ [l[m]] := by
        rw [List.take_succ, hget]
        rfl
      rw [htake, List.map_append, List.foldl_append]
      simp only [List.foldlM_cons, List.foldlM_nil, hget, jsRead]
      all_goals rfl

theorem evictE_eq (s : Store κ) : evictE s = Except.ok (evict s) := by
  unfold evictE evict victims
  split
  case isTrue hgt =>
    have hlen := length_sortByWindowStart s
    have hm : ((sortByWindowStart s).length + 1) / 2 ≤ (sortByWindowStart s).length := by
      omega
    exact foldlM_range_delete (sortByWindowStart s)
      (((sortByWindowStart s).length + 1) / 2) s hm
  case isFalse => rfl

theorem mapSet_of_not_mem {s : Store κ} {k : κ} (v : Entry)
    (h : k ∉ s.map Prod.fst) : mapSet s k v = s ++ [(k, v)] := by
  induction s with
  | nil => rfl
  | cons p ps ih =>
      simp only [List.map_cons, List.mem_cons] at h
      push_neg at h
      rw [mapSet, if_neg (fun hh => h.1 hh.symm), ih h.2]
      rfl

theorem bigStore_succ (n : Nat) :
    bigStore (n + 1) = bigStore n ++ [(n, ⟨1, 0⟩)] := by
  unfold bigStore
  rw [List.range_succ, List.map_append]
  rfl

theorem runCheck_store_append (wm : Int) (mr : Nat) (l1 l2 : List (Call κ)) :
    ∀ s : Store κ, (runCheck wm mr s (l1 ++ l2)).2
      = (runCheck wm mr (runCheck wm mr s l1).2 l2).2 := by
  induction l1 with
  | nil => intro s; rfl
  | cons c cs ih =>
      intro s
      simp only [List.cons_append, runCheck]
      exact ih _

theorem runCheck_fill :
    ∀ n : Nat, n ≤ RATE_LIMIT_MAX_ENTRIES + 1 →
      (runCheck 300000 20 ([] : Store Nat)
        ((List.range n).map (fun i => ⟨0, i⟩))).2 = bigStore n := by
  intro n
  induction n with
  | zero => intro h; rfl
  | succ n ih =>
      intro h
      rw [List.range_succ, List.map_append, runCheck_store_append, ih (by omega)]
      have hsw : sweep 300000 0 (bigStore n) = bigStore n :=
        sweep_bigStore n (by norm_num)
      have hev : evict (bigStore n) = bigStore n :=
        evict_of_le (by rw [length_bigStore]; omega)
      have hget : mapGet (evict (sweep 300000 0 (bigStore n))) n = none := by
        rw [hsw, hev]
        exact mapGet_bigStore_ge (le_refl n)
      have hnot : (n : Nat) ∉ (bigStore n).map Prod.fst := by
        rw [keys_bigStore]
        simp
      simp only [List.map_cons, List.map_nil, runCheck]
      rw [check_get_none_eq 300000 20 (bigStore n) 0 n hget, hsw, hev,
        mapSet_of_not_mem _ hnot, bigStore_succ]

theorem except_bind_ok {ε α β : Type} (a : α) (f : α → Except ε β) :
    (Except.ok a >>= f) = f a := rfl

/-- Claim C8: the limiter's public check never throws.  With every
JS-fallible operation of the body made explicit (`checkRateLimitE`), every
call on every store, key and clock returns `Except.ok` — never an error —
and the value is exactly the boolean-and-store result of the pure
embedding: capacity pressure is handled by eviction and expired state by
the sweep, never by raising. -/
theorem checkRateLimit_never_throws (wm : Int) (mr : Nat) (s : Store κ)
    (now : Int) (k : κ) :
    checkRateLimitE wm mr s now k = Except.ok (checkRateLimit wm mr s now k) := by
  cases hget : mapGet (evict (sweep wm now s)) k with
  | none =>
      rw [check_get_none_eq wm mr s now k hget]
      unfold checkRateLimitE
      rw [evictE_eq, except_bind_ok]
      simp only [hget]
      all_goals rfl
  | some e =>
      rw [check_get_some_eq wm mr s now k e hget]
      unfold checkRateLimitE
      rw [evictE_eq, except_bind_ok]
      by_cases hx : now - e.windowStart > wm
      · simp only [hget, if_pos hx]
        all_goals rfl
      · simp only [hget, if_neg hx]
        all_goals rfl

/-- Claim C1: for a fresh key under policy `(windowMs, maxRequests)` with a
positive request budget, when all calls land within `windowMs` of the first,
the `i`-th call (1-based) returns `decide (i > maxRequests)`: the first
`maxRequests` calls admit (`false`), the `(maxRequests + 1)`-th call and
every later call in the window block (`true`), and the stored count keeps
incrementing past the limit (it ends at the total number of calls) rather
than saturating. -/
theorem fixedWindow_admits_then_blocks (wm : Int) (mr : Nat) (k : κ) (t0 : Int)
    (ts : List Int) (hmr : 1 ≤ mr) (h : ∀ t ∈ ts, t - t0 ≤ wm) :
    (runCheck wm mr ([] : Store κ) (⟨t0, k⟩ :: ts.map (fun t => ⟨t, k⟩))).1
      = (List.range (ts.length + 1)).map (fun i => decide (i + 1 > mr))
    ∧ mapGet (runCheck wm mr ([] : Store κ)
        (⟨t0, k⟩ :: ts.map (fun t => ⟨t, k⟩))).2 k
      = some ⟨ts.length + 1, t0⟩ := by
  have h0 := check_empty wm mr t0 k
  have hrun := run_single wm mr k t0 ts 1 h
  constructor
  · simp only [runCheck, h0, hrun]
    rw [List.range_succ_eq_map, List.map_cons, List.map_map]
    congr 1
    · symm
      rw [decide_eq_false_iff_not]
      omega
    · apply List.map_congr_left
      intro p _
      simp only [Function.comp_apply]
      rw [decide_eq_decide]
      omega
  · simp only [runCheck, h0, hrun]
    simp [mapGet, Nat.add_comm]

/-- Claim C1 witness: with the chat policy (20 requests per 5-minute
window), 21 calls for one fresh key inside one window admit twenty times
and then block. -/
theorem fixedWindow_admits_then_blocks_witness :
    ((1 : Nat) ≤ 20 ∧ ∀ t ∈ List.replicate 20 (0 : Int), t - 0 ≤ (300000 : Int))
    ∧ (runCheck 300000 20 ([] : Store Nat)
        (⟨0, 0⟩ :: (List.replicate 20 (0 : Int)).map (fun t => ⟨t, 0⟩))).1
      = List.replicate 20 false ++ [true] := by
  have hts : ∀ t ∈ List.replicate 20 (0 : Int), t - 0 ≤ (300000 : Int) := by
    intro t ht
    rw [List.eq_of_mem_replicate ht]
    norm_num
  refine ⟨⟨by norm_num, hts⟩, ?_⟩
  have h := (fixedWindow_admits_then_blocks 300000 20 (0 : Nat) 0
    (List.replicate 20 (0 : Int)) (by norm_num) hts).1
  rw [h]
  decide

/-- Claim C2 counterexample: the claimed invariant — the store size never
remains above `RATE_LIMIT_MAX_ENTRIES` after a call completes — fails on a
concrete run: starting from the empty store, 10001 calls with distinct keys
at one instant leave the store with 10001 entries (the 10001-th call sweeps
nothing, sees exactly 10000 entries — not strictly more — skips eviction,
and then inserts). -/
theorem store_size_cap_counterexample :
    ¬ ((runCheck 300000 20 ([] : Store Nat)
        ((List.range 10001).map (fun i => ⟨0, i⟩))).2.length
      ≤ RATE_LIMIT_MAX_ENTRIES) := by
  rw [runCheck_fill 10001 (by norm_num [RATE_LIMIT_MAX_ENTRIES]),
    length_bigStore]
  norm_num [RATE_LIMIT_MAX_ENTRIES]

/-- Claim C2 (amended): after the expiry sweep, whenever the store still
exceeds `RATE_LIMIT_MAX_ENTRIES`, the oldest-window half is evicted,
restoring `size ≤ RATE_LIMIT_MAX_ENTRIES` — but the insertion that follows
can push the store to `RATE_LIMIT_MAX_ENTRIES + 1`.  The invariant the code
maintains over every run from the empty store is
`size ≤ RATE_LIMIT_MAX_ENTRIES + 1` after each call, not
`size ≤ RATE_LIMIT_MAX_ENTRIES`. -/
theorem store_size_bounded_after_runs (wm : Int) (mr : Nat)
    (calls : List (Call κ)) :
    (runCheck wm mr ([] : Store κ) calls).2.length
      ≤ RATE_LIMIT_MAX_ENTRIES + 1 :=
  (runCheck_preserves wm mr calls []
    (by simp [KeysNodup]) (by simp)).2

/-- Claim C3: distinct keys never influence each other's admit/block
outcome.  For any interleaving of calls for two distinct keys `K1` and `K2`
(with the `Date.now()` clock nondecreasing over the sequence), the keyed
results for `K2` in the run from the fresh store are exactly the results of
the run in which no calls for `K1` were made at all; in particular,
exhausting `K1`'s quota changes no outcome for `K2`. -/
theorem distinct_keys_noninterference (wm : Int) (mr : Nat) (K1 K2 : κ)
    (hne : K1 ≠ K2) (calls : List (Call κ))
    (hkeys : ∀ c ∈ calls, c.key = K1 ∨ c.key = K2)
    (hmono : calls.Pairwise (fun a b => a.now ≤ b.now)) :
    (runPairs wm mr ([] : Store κ) calls).filter (fun p => decide (p.1 = K2))
      = runPairs wm mr ([] : Store κ)
          (calls.filter (fun c => !decide (c.key = K1))) := by
  have hne2 : K2 ≠ K1 := Ne.symm hne
  have hfc : calls.filter (fun c => !decide (c.key = K1))
      = calls.filter (fun c => decide (c.key = K2)) := by
    apply List.filter_congr
    intro c hc
    rcases hkeys c hc with h | h <;> simp [h, hne, hne2]
  rw [hfc]
  exact run_two wm mr K1 K2 hne calls [] [] hkeys hmono
    (by simp [KeysNodup]) (by simp [KeysNodup]) (by simp) (by simp)
    (fun c _ => rfl)

/-- Claim C3 witness: a four-call interleaving of keys 1 and 2. -/
theorem distinct_keys_noninterference_witness :
    ((1 : Nat) ≠ 2
    ∧ (∀ c ∈ [(⟨0, 1⟩ : Call Nat), ⟨0, 2⟩, ⟨0, 1⟩, ⟨1, 2⟩],
        c.key = 1 ∨ c.key = 2)
    ∧ ([(⟨0, 1⟩ : Call Nat), ⟨0, 2⟩, ⟨0, 1⟩, ⟨1, 2⟩].Pairwise
        (fun a b => a.now ≤ b.now)))
    ∧ (runPairs 300000 20 ([] : Store Nat)
        [⟨0, 1⟩, ⟨0, 2⟩, ⟨0, 1⟩, ⟨1, 2⟩]).filter (fun p => decide (p.1 = 2))
      = runPairs 300000 20 ([] : Store Nat)
          ([(⟨0, 1⟩ : Call Nat), ⟨0, 2⟩, ⟨0, 1⟩, ⟨1, 2⟩].filter
            (fun c => !decide (c.key = 1))) := by
  refine ⟨⟨by decide, by decide, by decide⟩, ?_⟩
  exact distinct_keys_noninterference 300000 20 1 2 (by decide) _
    (by decide) (by decide)

/-- Claim C4: when more than `RATE_LIMIT_MAX_ENTRIES` distinct keys
accumulate, the eviction pass bounds the store: it keeps exactly
`⌊size / 2⌋` entries, every surviving (non-victim) key keeps its count and
windowStart intact, every evicted key is removed, each evicted entry's
windowStart is no newer than any survivor's (the oldest-window half is the
one evicted), and an evicted key's next call is admitted with a fresh
`count = 1` entry, exactly like a brand-new key. -/
theorem eviction_keeps_newest_half (s : Store κ) (hnd : KeysNodup s)
    (hgt : s.length > RATE_LIMIT_MAX_ENTRIES) :
    (evict s).length = s.length / 2
    ∧ (∀ k, k ∉ victims s → mapGet (evict s) k = mapGet s k)
    ∧ (∀ k ∈ victims s, mapGet (evict s) k = none)
    ∧ (∀ p ∈ s, ∀ q ∈ s, p.1 ∈ victims s → q.1 ∉ victims s →
        p.2.windowStart ≤ q.2.windowStart)
    ∧ (∀ k ∈ victims s, ∀ (wm now : Int) (mr : Nat),
        (checkRateLimit wm mr (evict s) now k).1 = false
        ∧ mapGet (checkRateLimit wm mr (evict s) now k).2 k
            = some ⟨1, now⟩) := by
  refine ⟨?_, ?_, ?_, victims_oldest hnd, ?_⟩
  · rw [evict_length hnd hgt]
    omega
  · intro k hk
    exact mapGet_evict_of_not_victim hnd hk
  · intro k hk
    exact mapGet_evict_of_victim hnd hgt hk
  · intro k hk wm now mr
    exact check_fresh wm mr now (mapGet_evict_of_victim hnd hgt hk)

/-- Claim C4 witness: a store of 10001 distinct keys triggers the eviction
pass and is halved to 5000 entries. -/
theorem eviction_keeps_newest_half_witness :
    (KeysNodup (bigStore 10001)
    ∧ (bigStore 10001).length > RATE_LIMIT_MAX_ENTRIES)
    ∧ (evict (bigStore 10001)).length = (bigStore 10001).length / 2 := by
  have h1 : KeysNodup (bigStore 10001) := keysNodup_bigStore 10001
  have h2 : (bigStore 10001).length > RATE_LIMIT_MAX_ENTRIES := by
    rw [length_bigStore]
    norm_num [RATE_LIMIT_MAX_ENTRIES]
  exact ⟨⟨h1, h2⟩, (eviction_keeps_newest_half (bigStore 10001) h1 h2).1⟩

/-- Claim C5: a key whose stored entry is expired at the next call
(`now - windowStart > windowMs`), however large its count, is reset by that
call: the call admits (`false`), writes a fresh entry with `count = 1` and
`windowStart = now`, and both the result and the key's stored entry
afterwards coincide with those of the same call made on the store with the
key absent — a brand-new key, with no residual penalty. -/
theorem window_expiry_resets_key (wm : Int) (mr : Nat) (s : Store κ)
    (now : Int) (k : κ) (e : Entry) (hnd : KeysNodup s)
    (hget : mapGet s k = some e) (hexp : now - e.windowStart > wm) :
    (checkRateLimit wm mr s now k).1 = false
    ∧ mapGet (checkRateLimit wm mr s now k).2 k = some ⟨1, now⟩
    ∧ (checkRateLimit wm mr s now k).1
        = (checkRateLimit wm mr (mapDelete s k) now k).1
    ∧ mapGet (checkRateLimit wm mr s now k).2 k
        = mapGet (checkRateLimit wm mr (mapDelete s k) now k).2 k := by
  have h1 : mapGet (sweep wm now s) k = none := by
    rw [mapGet_sweep wm now k hnd, hget]
    simp [liveEntry, hexp]
  have h2 : mapGet (evict (sweep wm now s)) k = none := mapGet_evict_eq_none h1
  have hmain : (checkRateLimit wm mr s now k).1 = false
      ∧ mapGet (checkRateLimit wm mr s now k).2 k = some ⟨1, now⟩ := by
    rw [check_get_none_eq wm mr s now k h2]
    exact ⟨rfl, mapGet_mapSet_self _ _ _⟩
  have hdel := check_fresh wm mr now (mapGet_mapDelete_self k hnd)
  exact ⟨hmain.1, hmain.2, by rw [hmain.1, hdel.1], by rw [hmain.2, hdel.2]⟩

/-- Claim C5 witness: an entry 5 counts over the chat limit whose window
expired one millisecond ago is reset to a fresh admitted entry. -/
theorem window_expiry_resets_key_witness :
    (KeysNodup [((0 : Nat), (⟨25, 0⟩ : Entry))]
    ∧ mapGet [((0 : Nat), (⟨25, 0⟩ : Entry))] 0 = some ⟨25, 0⟩
    ∧ (300001 : Int) - (0 : Int) > 300000)
    ∧ (checkRateLimit 300000 20 [((0 : Nat), (⟨25, 0⟩ : Entry))] 300001 0).1
        = false
    ∧ mapGet (checkRateLimit 300000 20 [((0 : Nat), (⟨25, 0⟩ : Entry))]
        300001 0).2 0 = some ⟨1, 300001⟩ := by
  have hnd : KeysNodup [((0 : Nat), (⟨25, 0⟩ : Entry))] := by
    unfold KeysNodup
    decide
  have h := window_expiry_resets_key 300000 20
    [((0 : Nat), (⟨25, 0⟩ : Entry))] 300001 0 ⟨25, 0⟩
    hnd (by decide) (by decide)
  exact ⟨⟨hnd, by decide, by decide⟩, h.1, h.2.1⟩

/-- Claim C6: when a remote backend is configured and its call fails, that
request is evaluated by the local fixed-window backend — the handler's
result and store update are exactly the local limiter's, never an
unconditional admit or block — and when no remote backend is configured at
all, the local backend is used unconditionally. -/
theorem remote_failure_falls_back_to_local (f : κ → Except Unit Bool)
    (s : Store κ) (now : Int) (k : κ) (hfail : f k = Except.error ()) :
    checkChatRateLimit (some f) s now k
      = checkRateLimit CHAT_RATE_WINDOW CHAT_RATE_MAX s now k
    ∧ checkChatRateLimit (none : Option (κ → Except Unit Bool)) s now k
      = checkRateLimit CHAT_RATE_WINDOW CHAT_RATE_MAX s now k := by
  constructor
  · show (match f k with
      | Except.ok success => (!success, s)
      | Except.error _ =>
          checkRateLimit CHAT_RATE_WINDOW CHAT_RATE_MAX s now k)
      = checkRateLimit CHAT_RATE_WINDOW CHAT_RATE_MAX s now k
    rw [hfail]
  · rfl

/-- Claim C6 witness: a remote backend that always fails falls back to the
local limiter on a concrete call. -/
theorem remote_failure_falls_back_witness :
    ((fun _ : Nat => (Except.error () : Except Unit Bool)) 0
        = Except.error ())
    ∧ checkChatRateLimit (some fun _ : Nat =>
        (Except.error () : Except Unit Bool)) [] 0 0
      = checkRateLimit CHAT_RATE_WINDOW CHAT_RATE_MAX [] 0 0 :=
  ⟨rfl, (remote_failure_falls_back_to_local
    (fun _ : Nat => (Except.error () : Except Unit Bool)) [] 0 0 rfl).1⟩

/-- Claim C7: on a block outcome the guarded action is never performed.  A
chat request that reaches the rate-limit check and is blocked gets the
`rateLimited` (429) outcome and is never forwarded to the completion API; a
blocked admin sign-in gets the `rateLimited` (429) outcome and the
submitted credentials are never evaluated. -/
theorem blocked_request_never_forwarded (r : ChatRequest κ) (s : Store κ)
    (now : Int) (lr : LoginRequest κ) (ls : Store κ) (lnow : Int)
    (hb : r.hasBody = true) (hv : r.validateOnly = false)
    (hcm : r.codeMissing = false) (hcv : r.codeValid = true)
    (hblock : (checkRateLimit CHAT_RATE_WINDOW CHAT_RATE_MAX s now
      r.codestr).1 = true)
    (hlblock : (checkRateLimit ADMIN_LOGIN_RATE_WINDOW ADMIN_LOGIN_RATE_MAX
      ls lnow lr.clientIp).1 = true) :
    (chatHandler true r s now).1 = ChatOutcome.rateLimited
    ∧ (chatHandler true r s now).1 ≠ ChatOutcome.forwarded
    ∧ (adminLoginHandler lr ls lnow).1 = LoginOutcome.rateLimited
    ∧ (adminLoginHandler lr ls lnow).2.2 = false := by
  have hchat : (chatHandler true r s now).1 = ChatOutcome.rateLimited := by
    unfold chatHandler
    simp [hb, hv, hcm, hcv, hblock]
  have hlogin : (adminLoginHandler lr ls lnow).1 = LoginOutcome.rateLimited
      ∧ (adminLoginHandler lr ls lnow).2.2 = false := by
    unfold adminLoginHandler
    simp [hlblock]
  refine ⟨hchat, ?_, hlogin.1, hlogin.2⟩
  rw [hchat]
  decide

/-- Claim C7 witness: concrete over-quota chat and login states. -/
theorem blocked_request_never_forwarded_witness :
    ((checkRateLimit CHAT_RATE_WINDOW CHAT_RATE_MAX
        [((7 : Nat), (⟨20, 0⟩ : Entry))] 0 7).1 = true
    ∧ (checkRateLimit ADMIN_LOGIN_RATE_WINDOW ADMIN_LOGIN_RATE_MAX
        [((9 : Nat), (⟨5, 0⟩ : Entry))] 0 9).1 = true)
    ∧ (chatHandler true ⟨true, false, 7, false, true, true⟩
        [((7 : Nat), (⟨20, 0⟩ : Entry))] 0).1 = ChatOutcome.rateLimited
    ∧ (adminLoginHandler ⟨(9 : Nat), true, true, false⟩
        [((9 : Nat), (⟨5, 0⟩ : Entry))] 0).2.2 = false := by
  have h := blocked_request_never_forwarded (κ := Nat)
    ⟨true, false, 7, false, true, true⟩ [((7 : Nat), ⟨20, 0⟩)] 0
    ⟨9, true, true, false⟩ [((9 : Nat), ⟨5, 0⟩)] 0
    rfl rfl rfl rfl (by decide) (by decide)
  exact ⟨⟨by decide, by decide⟩, h.1, h.2.2.2⟩

/-- Claim C9: a chat request with `validateOnly` set returns before the
rate-limit check is reached: whatever the prior state of the chat limiter,
the store is left completely unchanged (the request is never counted
against the quota) and the outcome is neither `rateLimited` nor
`forwarded`. -/
theorem validateOnly_skips_rate_limit (ak : Bool) (r : ChatRequest κ)
    (s : Store κ) (now : Int) (hv : r.validateOnly = true) :
    (chatHandler ak r s now).2 = s
    ∧ (chatHandler ak r s now).1 ≠ ChatOutcome.rateLimited
    ∧ (chatHandler ak r s now).1 ≠ ChatOutcome.forwarded := by
  unfold chatHandler
  rcases ak with _ | _ <;>
    by_cases h2 : r.hasBody <;> by_cases h3 : r.codeValid <;>
      simp [hv, h2, h3]

/-- Claim C9 witness: a `validateOnly` request leaves the empty store
empty. -/
theorem validateOnly_skips_rate_limit_witness :
    ((⟨true, true, (0 : Nat), false, true, true⟩ : ChatRequest Nat).validateOnly
        = true)
    ∧ (chatHandler true
        (⟨true, true, (0 : Nat), false, true, true⟩ : ChatRequest Nat) [] 0).2
      = [] :=
  ⟨rfl, (validateOnly_skips_rate_limit true _ [] 0 rfl).1⟩

/-- Claim C10: the chat limiter and the admin-login limiter are isolated
instances, each closing over its own fresh Map: over any interleaved call
sequence, the chat store evolves exactly as if driven by the chat calls
alone and the login store exactly as if driven by the login calls alone —
so chat calls leave the login store (all entries, counts and window starts)
unchanged and vice versa, and one key tracked by both limiters has fully
independent counts. -/
theorem limiters_are_isolated (calls : List (ServerCall κ)) :
    ∀ st : ServerState κ,
      (serverRun st calls).chatStore
        = (runCheck CHAT_RATE_WINDOW CHAT_RATE_MAX st.chatStore
            (chatCallsOf calls)).2
      ∧ (serverRun st calls).loginStore
        = (runCheck ADMIN_LOGIN_RATE_WINDOW ADMIN_LOGIN_RATE_MAX st.loginStore
            (loginCallsOf calls)).2 := by
  induction calls with
  | nil => intro st; exact ⟨rfl, rfl⟩
  | cons c cs ih =>
      intro st
      cases c with
      | chat now key =>
          obtain ⟨ih1, ih2⟩ := ih (serverStep st (ServerCall.chat now key))
          constructor
          · rw [show serverRun st (ServerCall.chat now key :: cs)
                = serverRun (serverStep st (ServerCall.chat now key)) cs
                from rfl, ih1]
            simp [serverStep, chatCallsOf, runCheck]
          · rw [show serverRun st (ServerCall.chat now key :: cs)
                = serverRun (serverStep st (ServerCall.chat now key)) cs
                from rfl, ih2]
            simp [serverStep, loginCallsOf]
      | login now key =>
          obtain ⟨ih1, ih2⟩ := ih (serverStep st (ServerCall.login now key))
          constructor
          · rw [show serverRun st (ServerCall.login now key :: cs)
                = serverRun (serverStep st (ServerCall.login now key)) cs
                from rfl, ih1]
            simp [serverStep, chatCallsOf]
          · rw [show serverRun st (ServerCall.login now key :: cs)
                = serverRun (serverStep st (ServerCall.login now key)) cs
                from rfl, ih2]
            simp [serverStep, loginCallsOf, runCheck]

end DnbCoaching
